import Mathlib

/-!
Verification of the ranking / aggregation / audit pipeline of
`streamlit_app.py` (talent-AI-system).

The pipeline consumes the flat result set of the external scoring
procedure (one row per (employee, TGV-domain) pair) and derives the
ranked candidate list, the per-employee top domain, the
benchmark-vs-candidate comparison vector and the summary insights.
Rows are embedded as a structure over `ℚ` (match rates are exact
0–100 scores; the source holds them as floats but no claim here
depends on rounding), pandas frames as lists of rows in frame order.
-/

/-- One row of the scoring result (`df_sql_results`): one record per
(employee, TGV-domain) pair, with the employee-level attributes
repeated on every domain row. -/
structure ScoredRow where
  employee_id : String
  role : String
  grade : String
  directorate : String
  final_match_rate : ℚ
  is_benchmark : Bool
  tgv_name : String
  tgv_match_rate : ℚ
  deriving DecidableEq, Repr

/-- A row of the employee directory (`employees` table):
`(employee_id, fullname)`. -/
abbrev DirEntry := String × String

/-- `(employee_id, tgv_name, tgv_match_rate)` — the three columns
selected before domain-level de-duplication and grouping. -/
abbrev TgvTriple := String × String × ℚ

/-- Worker for `dedupByKey`: `seen` accumulates the keys already kept. -/
def dedupKeyAux {α β : Type} [DecidableEq β] (key : α → β) :
    List β → List α → List α
  | _, [] => []
  | seen, x :: xs =>
    if key x ∈ seen then dedupKeyAux key seen xs
    else x :: dedupKeyAux key (key x :: seen) xs

/-- pandas `drop_duplicates` (default `keep='first'`): keep the first
row for every key, in first-occurrence order.  `drop_duplicates()`
with no subset is `dedupByKey id`; `drop_duplicates('employee_id')`
is `dedupByKey (·.employee_id)`. -/
def dedupByKey {α β : Type} [DecidableEq β] (key : α → β) (l : List α) : List α :=
  dedupKeyAux key [] l

/-- The projection + `drop_duplicates()` step
`df[['employee_id','tgv_name','tgv_match_rate']].drop_duplicates()`:
project every row to its triple, then drop exact duplicate triples
(keep first). -/
def uniqueTgvRows (rows : List ScoredRow) : List TgvTriple :=
  dedupByKey (fun t => t)
    (rows.map (fun r => (r.employee_id, r.tgv_name, r.tgv_match_rate)))

/-- First element attaining the maximum of `f`, i.e. pandas `idxmax`
(which returns the first occurrence of the maximum): a later element
replaces the current best only when strictly greater. -/
def argmaxFirst {α : Type} (f : α → ℚ) : List α → Option α
  | [] => none
  | x :: xs =>
    match argmaxFirst f xs with
    | none => some x
    | some y => if f y > f x then some y else some x

/-- First element attaining the minimum of `f`, i.e. pandas `idxmin`. -/
def argminFirst {α : Type} (f : α → ℚ) : List α → Option α
  | [] => none
  | x :: xs =>
    match argminFirst f xs with
    | none => some x
    | some y => if f y < f x then some y else some x

/-- Lines 293–299: `df_unique_tgv = df[[...3 cols...]].drop_duplicates()`
then `df_unique_tgv.loc[df_unique_tgv.groupby('employee_id')['tgv_match_rate'].idxmax()]`,
read off for one employee: among that employee's de-duplicated triples,
the `tgv_name` of the first row attaining the maximal `tgv_match_rate`.
An employee with no rows has no group, hence no entry (`none`). -/
def computeTopDomainPerEmployee (rows : List ScoredRow) (e : String) : Option String :=
  (argmaxFirst (fun t => t.2.2)
      ((uniqueTgvRows rows).filter (fun t => t.1 == e))).map (fun t => t.2.1)

/-- Modelled from the spec (refinement target for claim C3, not from the
source): the same selection but after de-duplicating by the *pair*
`(employee_id, tgv_name)` as the spec prescribes, instead of by the full
triple as the source does. -/
def specTopDomainPerEmployee (rows : List ScoredRow) (e : String) : Option String :=
  (argmaxFirst (fun t => t.2.2)
      ((dedupByKey (fun t => (t.1, t.2.1))
          (rows.map (fun r => (r.employee_id, r.tgv_name, r.tgv_match_rate)))).filter
        (fun t => t.1 == e))).map (fun t => t.2.1)

/-- `dir.filter` on one key — the rows of the directory matching an
employee id (pandas merge matches every occurrence). -/
def dirMatches (dir : List DirEntry) (e : String) : List String :=
  (dir.filter (fun d => d.1 == e)).map (fun d => d.2)

/-- First directory entry for an id, as an optional fullname. -/
def dirLookup (dir : List DirEntry) (e : String) : Option String :=
  (dir.find? (fun d => d.1 == e)).map (fun d => d.2)

/-- Line 303: `pd.merge(df_ranked, employee_list_df[['employee_id','fullname']],
on='employee_id', how='left')`.  Every left row is paired with every
matching directory row; a left row with no match gets a missing
(`NaN`) fullname, modelled as `none`. -/
def mergeFullname (l : List ScoredRow) (dir : List DirEntry) :
    List (ScoredRow × Option String) :=
  l.flatMap (fun r =>
    let ms := dirMatches dir r.employee_id
    if ms.isEmpty then [(r, none)] else ms.map (fun n => (r, some n)))

/-- One row of the displayed ranked frame before the `Rank` column. -/
structure Candidate where
  employee_id : String
  fullname : String
  role : String
  grade : String
  directorate : String
  final_match_rate : ℚ
  is_benchmark : Bool
  top_tgv : String
  deriving DecidableEq, Repr

/-- A ranked row: the inserted 1-based `Rank` column plus the candidate. -/
structure RankedCandidate where
  rank : Nat
  cand : Candidate
  deriving DecidableEq, Repr

/-- Lines 311–315: attach `top_tgv` by left-merging the per-employee top
domain map and `fillna('N/A')` (the map has one row per employee, so the
merge is a lookup; when `df_top_tgv` is empty the source assigns the
constant `'N/A'`, which coincides with the lookup default). -/
def toCandidate (rows : List ScoredRow) (r : ScoredRow) (name : String) : Candidate :=
  { employee_id := r.employee_id
    fullname := name
    role := r.role
    grade := r.grade
    directorate := r.directorate
    final_match_rate := r.final_match_rate
    is_benchmark := r.is_benchmark
    top_tgv := (computeTopDomainPerEmployee rows r.employee_id).getD "N/A" }

/-- Stable insertion of `x` into a list sorted ascending by `f`: `x` goes
before the first element not strictly below it. -/
def insertAscBy {α : Type} (f : α → ℚ) (x : α) : List α → List α
  | [] => [x]
  | y :: ys => if f y < f x then y :: insertAscBy f x ys else x :: y :: ys

/-- Stable ascending insertion sort by key `f` (numpy's default sort is
insertion sort on the small arrays this app produces, and is stable
there; tie order on larger inputs is implementation-defined and this
model fixes the stable realization). -/
def insertSortAscBy {α : Type} (f : α → ℚ) : List α → List α
  | [] => []
  | x :: xs => insertAscBy f x (insertSortAscBy f xs)

/-- Line 319: `sort_values('final_match_rate', ascending=False)` with the
default (`quicksort`) kind.  pandas (`nargsort`) computes an *ascending*
argsort with numpy's default sort and reverses the whole indexer for
`ascending=False`.  numpy's default sort is unstable above its
insertion-sort threshold, so the source guarantees only the descending
key order, not any tie order; this model fixes one admissible
realization (reverse of a stable ascending sort — exact in the
small-array regime).  General theorems about the ranking use this
definition only through sortedness, length, membership and permutation,
which hold for every realization; only the closed tie-order
counterexample, whose two-element input lies in the regime where the
realization is exact, evaluates its tie behavior. -/
def sortValuesDesc {α : Type} (f : α → ℚ) (l : List α) : List α :=
  (insertSortAscBy f l).reverse

/-- Stable insertion of `x` into a list sorted descending by `f`: `x`
goes before the first element not strictly above it. -/
def insertDescBy {α : Type} (f : α → ℚ) (x : α) : List α → List α
  | [] => [x]
  | y :: ys => if f y > f x then y :: insertDescBy f x ys else x :: y :: ys

/-- Stable descending insertion sort by key `f`.  This is the order of
pandas `nlargest(n, col)` with `keep='first'`, which sorts the negated
column with a *stable* kernel (mergesort), so earlier rows win ties. -/
def stableSortDescBy {α : Type} (f : α → ℚ) : List α → List α
  | [] => []
  | x :: xs => insertDescBy f x (stableSortDescBy f xs)

/-- `range(1, len+1)` attached as ranks down a list. -/
def assignRanksFrom : Nat → List Candidate → List RankedCandidate
  | _, [] => []
  | n, c :: cs => { rank := n, cand := c } :: assignRanksFrom (n + 1) cs

/-- Lines 302–318 up to (and including) the benchmark filter: dedup to
one row per employee (keep first), left-join fullnames, drop missing or
empty fullnames, attach `top_tgv`, keep `is_benchmark == False`. -/
def candidatePool (rows : List ScoredRow) (dir : List DirEntry) : List Candidate :=
  ((mergeFullname (dedupByKey (fun r => r.employee_id) rows) dir).filterMap
      (fun p =>
        match p.2 with
        | some n => if n == "" then none else some (toCandidate rows p.1 n)
        | none => none)).filter
    (fun c => c.is_benchmark == false)

/-- Lines 319–320: sort the candidate pool descending by
`final_match_rate` and insert the 1-based `Rank` column. -/
def rankedCore (rows : List ScoredRow) (dir : List DirEntry) : List RankedCandidate :=
  assignRanksFrom 1 (sortValuesDesc (fun c => c.final_match_rate) (candidatePool rows dir))

/-- The error raised by line 302 on an empty scoring result. -/
def keyErrorMsg : String :=
  "KeyError: ['employee_id', 'role', 'grade', 'directorate', 'final_match_rate', 'is_benchmark'] not in index"

/-- The ranked-list derivation, lines 302–320.  When the scoring RPC
returns no rows the source stores `pd.DataFrame()` (line 211), a frame
with *no columns*; the column selection
`df[['employee_id','role',...]]` at line 302 then raises `KeyError`
(it is caught only by the top-level display handler at lines 485–487).
With at least one row the frame has the full column set and the
derivation succeeds. -/
def buildRankedCandidates (rows : List ScoredRow) (dir : List DirEntry) :
    Except String (List RankedCandidate) :=
  if rows.isEmpty then Except.error keyErrorMsg
  else Except.ok (rankedCore rows dir)

/-- Per-domain mean of `tgv_match_rate` over a de-duplicated triple
list: pandas `groupby('tgv_name')['tgv_match_rate'].mean()` read off at
one domain name; `none` when the domain has no rows (a missing group,
which `Series.map` turns into `NaN`). -/
def groupMeanTgv (l : List TgvTriple) (t : String) : Option ℚ :=
  let g := (l.filter (fun x => x.2.1 == t)).map (fun x => x.2.2)
  if g.isEmpty then none else some (g.sum / (g.length : ℚ))

/-- Lines 407–413: the fixed canonical domain list `default_tgvs`. -/
def defaultTgvs : List String :=
  ["Competency", "Psychometric (Cognitive)", "Psychometric (Personality)",
   "Behavioral (Strengths)", "Contextual (Background)"]

/-- Lines 399–416: `radar_df`.  Partition the rows into benchmark rows
and the selected candidate's rows, de-duplicate each projected triple
set, take the per-domain means, and align them to `default_tgvs` with
`fillna(0)` (a domain missing from either side maps to `NaN`, then 0).
Each entry is `(tgv_name, Benchmark Avg, Candidate)`. -/
def buildComparisonVector (rows : List ScoredRow) (cid : String) :
    List (String × ℚ × ℚ) :=
  defaultTgvs.map (fun t =>
    (t,
      (groupMeanTgv (uniqueTgvRows (rows.filter (fun r => r.is_benchmark))) t).getD 0,
      (groupMeanTgv (uniqueTgvRows (rows.filter (fun r => r.employee_id == cid))) t).getD 0))

/-- `diffs.notna().any()` (line 445): the diff series holds plain
rationals — after `fillna(0)` no entry of `radar_df` is `NaN`, so
`notna()` is identically true and `any()` is nonemptiness of the
series. -/
def notnaAny (l : List ℚ) : Bool :=
  !l.isEmpty

/-- The summary-insights outcome (lines 442–480): the strongest-area
domain (`idxmax` of the diffs), the largest-gap domain (`idxmin`), and
the retained "why this candidate ranks high" domains; an empty
`reasons` list is rendered as the balanced-performance message. -/
structure Insights where
  strongest : String
  gap : String
  reasons : List String
  deriving DecidableEq, Repr

/-- Lines 443–480: compute `diffs = Candidate - Benchmark Avg`; if
`diffs.notna().any()` fails the source shows "Could not determine
detailed comparison insights." (`none` here).  Otherwise report the
first domain attaining the maximal diff, the first attaining the
minimal diff, and of `nlargest(3, 'Candidate')` (stable, earlier rows
win ties) the domains with `Candidate >= Benchmark Avg`, in that
order. -/
def computeInsights (v : List (String × ℚ × ℚ)) : Option Insights :=
  let diffs := v.map (fun e => e.2.2 - e.2.1)
  if notnaAny diffs then
    match argmaxFirst (fun e => e.2.2 - e.2.1) v,
        argminFirst (fun e => e.2.2 - e.2.1) v with
    | some eMax, some eMin =>
      some
        { strongest := eMax.1
          gap := eMin.1
          reasons :=
            (((stableSortDescBy (fun e => e.2.2) v).take 3).filter
                (fun e => e.2.1 ≤ e.2.2)).map (fun e => e.1) }
    | _, _ => none
  else none

/-- One row inserted into `vacancy_audit` (lines 253–259).
`match_rate` is `row.get('final_match_rate', None)` — present on every
typed row; `gap_report` is the empty object `{}`; `recommendations` is
`None`. -/
structure AuditRecord where
  vacancy_id : Nat
  candidate_id : String
  match_rate : Option ℚ
  gap_report : List (String × String)
  recommendations : Option String
  deriving DecidableEq, Repr

/-- Lines 251–259: the audit payload is built from `df_sql_results`
itself — one record per *raw scored row*. -/
def auditPayload (vid : Nat) (rows : List ScoredRow) : List AuditRecord :=
  rows.map (fun r =>
    { vacancy_id := vid
      candidate_id := r.employee_id
      match_rate := some r.final_match_rate
      gap_report := []
      recommendations := none })

/-- Python truthiness of `vacancy_id` (line 249): `None` and `0` are
falsy. -/
def pyTruthy : Option Nat → Bool
  | none => false
  | some n => n != 0

/-- Outcome of the generate block (lines 189–266) after the scoring
fetch succeeded with `rows`: what is left in the session state, the
vacancy id, and whether/what the audit insert was attempted with. -/
structure GenerateOutcome where
  sessionResults : List ScoredRow
  vacancyId : Option Nat
  auditAttempted : Bool
  auditRecords : List AuditRecord
  deriving Repr

/-- Lines 214–266: the session results are stored (line 216) *before*
the vacancy insert; the vacancy insert yields an id or fails
(`vacancy_id = None`, line 243); the audit insert runs only under
`if vacancy_id and not df_sql_results.empty` (line 249), building its
payload from the raw rows.  `vacancyInsert` is the outcome of the
external vacancy insert (`none` models the caught exception). -/
def runGenerate (rows : List ScoredRow) (vacancyInsert : Option Nat) : GenerateOutcome :=
  if pyTruthy vacancyInsert && !rows.isEmpty then
    { sessionResults := rows
      vacancyId := vacancyInsert
      auditAttempted := true
      auditRecords := auditPayload (vacancyInsert.getD 0) rows }
  else
    { sessionResults := rows
      vacancyId := vacancyInsert
      auditAttempted := false
      auditRecords := [] }

/-- Lines 370–372: de-duplicate the projected triples, group by
`tgv_name`, take the mean per group, sort ascending by mean (the bar
series).  Group keys are taken in first-occurrence order; the final
order is by ascending mean. -/
def domainDistribution (rows : List ScoredRow) : List (String × ℚ) :=
  let triples := uniqueTgvRows rows
  let names := dedupByKey (fun s => s) (triples.map (fun t => t.2.1))
  insertSortAscBy (fun p => p.2)
    (names.map (fun t => (t, (groupMeanTgv triples t).getD 0)))

/-- One deduplicated employee row through join, name filters, `top_tgv`
attach and benchmark filter. -/
def poolStep (rows : List ScoredRow) (dir : List DirEntry) (r : ScoredRow) :
    Option Candidate :=
  match dirLookup dir r.employee_id with
  | some n =>
    if n == "" then none
    else if r.is_benchmark then none else some (toCandidate rows r n)
  | none => none

/-- The claim's counting predicate: employee `e` is shown iff its (first)
row is not a benchmark row and the directory holds a non-empty fullname
for it. -/
def isCandidateId (rows : List ScoredRow) (dir : List DirEntry) (e : String) : Bool :=
  (match rows.find? (fun r => r.employee_id == e) with
    | some r => !r.is_benchmark
    | none => false)
  && (match dirLookup dir e with
    | some n => n != ""
    | none => false)

/-- `N` of claim C1: the number of distinct employee ids whose rows are
non-benchmark and which the directory maps to a non-empty fullname. -/
def candidateCount (rows : List ScoredRow) (dir : List DirEntry) : Nat :=
  (((rows.map (fun r => r.employee_id)).dedup).filter (isCandidateId rows dir)).length

/-- Test fixture: a scored row with fixed descriptive fields. -/
def mkRow (e : String) (fr : ℚ) (b : Bool) (t : String) (tr : ℚ) : ScoredRow :=
  { employee_id := e, role := "Sales", grade := "G1", directorate := "Dir",
    final_match_rate := fr, is_benchmark := b, tgv_name := t, tgv_match_rate := tr }

/-- Scenario rows of spec §8.6: two candidates, one domain row each. -/
def basicRows : List ScoredRow :=
  [mkRow "E1" 80 false "Competency" 90, mkRow "E2" 95 false "Competency" 70]

/-- Directory for the basic scenario. -/
def basicDir : List DirEntry := [("E1", "Alice"), ("E2", "Bob")]

/-- Two candidates tied on `final_match_rate` — `E1` precedes `E2` in
the input. -/
def tieRows : List ScoredRow :=
  [mkRow "E1" 80 false "Competency" 90, mkRow "E2" 80 false "Competency" 70]

/-- One employee whose (employee, domain) pair `(E1, A)` recurs with two
different `tgv_match_rate` values (such fan-out is exactly what the spec
says the de-duplication must guard against). -/
def dupPairRows : List ScoredRow :=
  [mkRow "E1" 75 false "A" 50, mkRow "E1" 75 false "A" 90, mkRow "E1" 75 false "B" 70]

/-- One non-benchmark employee with two domain rows plus one benchmark
employee: the ranked candidate list has a single entry, but the raw
result set has three rows. -/
def auditRows : List ScoredRow :=
  [mkRow "E1" 75 false "Competency" 80,
   mkRow "E1" 75 false "Psychometric (Cognitive)" 60,
   mkRow "B1" 99 true "Competency" 90]

/-- Directory for the audit scenario. -/
def auditDir : List DirEntry := [("E1", "Alice"), ("B1", "Bench")]

/-- The number of entries ranked strictly above `e` in the order pandas
`nlargest(n, col)` with `keep='first'` uses: an entry occurring before
`e` outranks it when its key is `≥ f e`, an entry after `e` only when
strictly greater. -/
def beatCount {α : Type} [DecidableEq α] (f : α → ℚ) : List α → α → Nat
  | [], _ => 0
  | y :: ys, e =>
    if y = e then ys.countP (fun z => f e < f z)
    else (if f e ≤ f y then 1 else 0) + beatCount f ys e

/-! ### De-duplication lemmas -/

theorem mem_of_mem_dedupKeyAux {α β : Type} [DecidableEq β] (key : α → β)
    (seen : List β) (l : List α) (x : α) (hx : x ∈ dedupKeyAux key seen l) :
    x ∈ l := by
  induction l generalizing seen with
  | nil => simp [dedupKeyAux] at hx
  | cons r rs ih =>
    simp only [dedupKeyAux] at hx
    by_cases h : key r ∈ seen
    · simp only [h, if_pos] at hx
      exact List.mem_cons_of_mem _ (ih _ hx)
    · simp only [h, if_neg, not_false_iff] at hx
      rcases List.mem_cons.mp hx with h1 | h1
      · exact h1 ▸ List.mem_cons_self _ _
      · exact List.mem_cons_of_mem _ (ih _ h1)

theorem mem_map_key_dedupKeyAux {α β : Type} [DecidableEq β] (key : α → β)
    (seen : List β) (l : List α) (b : β) :
    b ∈ (dedupKeyAux key seen l).map key ↔ b ∈ l.map key ∧ b ∉ seen := by
  induction l generalizing seen with
  | nil => simp [dedupKeyAux]
  | cons r rs ih =>
    simp only [dedupKeyAux]
    by_cases h : key r ∈ seen
    · simp only [h, if_pos, List.map_cons, List.mem_cons, ih]
      constructor
      · rintro ⟨h1, h2⟩; exact ⟨Or.inr h1, h2⟩
      · rintro ⟨h1 | h1, h2⟩
        · exact absurd (h1 ▸ h) h2
        · exact ⟨h1, h2⟩
    · simp only [h, if_neg, not_false_iff, List.map_cons, List.mem_cons, ih,
        List.mem_cons]
      constructor
      · rintro (h1 | ⟨h1, h2⟩)
        · exact ⟨Or.inl h1, h1 ▸ h⟩
        · refine ⟨Or.inr h1, fun hb => h2 (Or.inr hb)⟩
      · rintro ⟨h1 | h1, h2⟩
        · exact Or.inl h1
        · by_cases hb : b = key r
          · exact Or.inl hb
          · exact Or.inr ⟨h1, fun hc => hc.elim hb h2⟩

theorem nodup_map_key_dedupKeyAux {α β : Type} [DecidableEq β] (key : α → β)
    (seen : List β) (l : List α) :
    ((dedupKeyAux key seen l).map key).Nodup := by
  induction l generalizing seen with
  | nil => simp [dedupKeyAux]
  | cons r rs ih =>
    simp only [dedupKeyAux]
    by_cases h : key r ∈ seen
    · simpa [h] using ih seen
    · simp only [h, if_neg, not_false_iff, List.map_cons, List.nodup_cons]
      refine ⟨fun hmem => ?_, ih _⟩
      exact ((mem_map_key_dedupKeyAux key _ rs (key r)).mp hmem).2
        (List.mem_cons_self _ _)

theorem find?_of_mem_dedupKeyAux {α : Type} (key : α → String)
    (seen : List String) (l : List α) (x : α)
    (hx : x ∈ dedupKeyAux key seen l) :
    key x ∉ seen ∧ l.find? (fun y => key y == key x) = some x := by
  induction l generalizing seen with
  | nil => simp [dedupKeyAux] at hx
  | cons r rs ih =>
    simp only [dedupKeyAux] at hx
    by_cases h : key r ∈ seen
    · simp only [h, if_pos] at hx
      obtain ⟨hseen, hfind⟩ := ih seen hx
      have hne : key r ≠ key x := fun he => hseen (he ▸ h)
      refine ⟨hseen, ?_⟩
      rw [List.find?_cons]
      simp only [beq_eq_false_iff_ne.mpr hne, hfind]
    · simp only [h, if_neg, not_false_iff] at hx
      rcases List.mem_cons.mp hx with h1 | h1
      · subst h1
        refine ⟨h, ?_⟩
        rw [List.find?_cons]
        simp
      · obtain ⟨hseen, hfind⟩ := ih _ h1
        have hne : key r ≠ key x := fun he =>
          hseen (he ▸ List.mem_cons_self _ _)
        have hseen' : key x ∉ seen := fun hc =>
          hseen (List.mem_cons_of_mem _ hc)
        refine ⟨hseen', ?_⟩
        rw [List.find?_cons]
        simp only [beq_eq_false_iff_ne.mpr hne, hfind]

theorem mem_of_mem_dedupByKey {α β : Type} [DecidableEq β] (key : α → β)
    (l : List α) (x : α) (hx : x ∈ dedupByKey key l) : x ∈ l :=
  mem_of_mem_dedupKeyAux key [] l x hx

theorem mem_map_key_dedupByKey {α β : Type} [DecidableEq β] (key : α → β)
    (l : List α) (b : β) :
    b ∈ (dedupByKey key l).map key ↔ b ∈ l.map key := by
  simpa [dedupByKey] using mem_map_key_dedupKeyAux key [] l b

theorem nodup_map_key_dedupByKey {α β : Type} [DecidableEq β] (key : α → β)
    (l : List α) : ((dedupByKey key l).map key).Nodup :=
  nodup_map_key_dedupKeyAux key [] l

theorem find?_of_mem_dedupByKey {α : Type} (key : α → String)
    (l : List α) (x : α) (hx : x ∈ dedupByKey key l) :
    l.find? (fun y => key y == key x) = some x :=
  (find?_of_mem_dedupKeyAux key [] l x hx).2

/-! ### Directory merge lemmas -/

theorem filter_key_eq_of_nodup (dir : List DirEntry)
    (hdir : (dir.map Prod.fst).Nodup) (e : String) :
    dir.filter (fun d => d.1 == e) = (dir.find? (fun d => d.1 == e)).toList := by
  induction dir with
  | nil => simp
  | cons d ds ih =>
    simp only [List.map_cons, List.nodup_cons] at hdir
    obtain ⟨hnot, hnd⟩ := hdir
    by_cases h : d.1 = e
    · have hfilter : ds.filter (fun x => x.1 == e) = [] := by
        rw [List.filter_eq_nil_iff]
        intro x hx hbeq
        exact hnot (by
          have : x.1 = e := by simpa using hbeq
          rw [← h] at this
          exact this ▸ List.mem_map_of_mem Prod.fst hx)
      rw [List.filter_cons, List.find?_cons]
      simp [h, hfilter]
    · rw [List.filter_cons, List.find?_cons]
      simp only [beq_eq_false_iff_ne.mpr h, ih hnd]
      simp [h]

theorem mergeFullname_eq_map (l : List ScoredRow) (dir : List DirEntry)
    (hdir : (dir.map Prod.fst).Nodup) :
    mergeFullname l dir = l.map (fun r => (r, dirLookup dir r.employee_id)) := by
  induction l with
  | nil => rfl
  | cons r rs ih =>
    simp only [mergeFullname, List.flatMap_cons] at *
    rw [ih]
    rw [dirMatches, filter_key_eq_of_nodup dir hdir r.employee_id]
    cases h : dir.find? (fun d => d.1 == r.employee_id) <;> simp [dirLookup, h]

theorem filter_after_filterMap {α β : Type} (f : α → Option β) (q : β → Bool)
    (l : List α) :
    (l.filterMap f).filter q =
      l.filterMap (fun x =>
        match f x with
        | some b => if q b then some b else none
        | none => none) := by
  induction l with
  | nil => rfl
  | cons x xs ih =>
    cases h : f x with
    | none => simp [List.filterMap_cons, h, ih]
    | some b =>
      cases hq : q b <;>
        simp [List.filterMap_cons, h, hq, List.filter_cons, ih]

theorem candidatePool_eq_filterMap (rows : List ScoredRow) (dir : List DirEntry)
    (hdir : (dir.map Prod.fst).Nodup) :
    candidatePool rows dir =
      (dedupByKey (fun r => r.employee_id) rows).filterMap (poolStep rows dir) := by
  unfold candidatePool
  rw [mergeFullname_eq_map _ dir hdir, filter_after_filterMap, List.filterMap_map]
  apply List.filterMap_congr
  intro r _
  simp only [Function.comp_apply]
  unfold poolStep
  cases h : dirLookup dir r.employee_id with
  | none => simp [h]
  | some n =>
    by_cases hn : n = ""
    · simp [h, hn]
    · have hbench : (toCandidate rows r n).is_benchmark = r.is_benchmark := rfl
      cases hb : r.is_benchmark <;>
        simp [h, beq_eq_false_iff_ne.mpr hn, hn, hbench, hb]

theorem length_candidatePool (rows : List ScoredRow) (dir : List DirEntry)
    (hdir : (dir.map Prod.fst).Nodup) :
    (candidatePool rows dir).length = candidateCount rows dir := by
  rw [candidatePool_eq_filterMap rows dir hdir, List.length_filterMap_eq_countP]
  have hstep : ∀ r ∈ dedupByKey (fun r => r.employee_id) rows,
      ((poolStep rows dir r).isSome : Bool) = isCandidateId rows dir r.employee_id := by
    intro r hr
    have hfind := find?_of_mem_dedupByKey (fun r => r.employee_id) rows r hr
    unfold poolStep isCandidateId
    rw [hfind]
    cases h : dirLookup dir r.employee_id with
    | none => simp
    | some n =>
      by_cases hn : n = ""
      · simp [hn]
      · cases hb : r.is_benchmark <;>
          simp [beq_eq_false_iff_ne.mpr hn, hn, hb]
  rw [List.countP_congr (fun r hr => by rw [hstep r hr])]
  have hmapped :
      (dedupByKey (fun r => r.employee_id) rows).countP
          (fun r => isCandidateId rows dir r.employee_id) =
        ((dedupByKey (fun r => r.employee_id) rows).map
            (fun r => r.employee_id)).countP (isCandidateId rows dir) := by
    rw [List.countP_map]
    rfl
  rw [hmapped]
  have hperm :
      ((dedupByKey (fun r => r.employee_id) rows).map (fun r => r.employee_id)).Perm
        ((rows.map (fun r => r.employee_id)).dedup) := by
    rw [List.perm_ext_iff_of_nodup (nodup_map_key_dedupByKey _ rows)
      (List.nodup_dedup _)]
    intro a
    rw [mem_map_key_dedupByKey, List.mem_dedup]
  rw [hperm.countP_eq, candidateCount, List.countP_eq_length_filter]

/-! ### Rank assignment and sorting lemmas -/

theorem map_cand_assignRanksFrom (n : Nat) (l : List Candidate) :
    (assignRanksFrom n l).map (fun c => c.cand) = l := by
  induction l generalizing n with
  | nil => rfl
  | cons c cs ih => simp [assignRanksFrom, ih]

theorem map_rank_assignRanksFrom (n : Nat) (l : List Candidate) :
    (assignRanksFrom n l).map (fun c => c.rank) = List.range' n l.length := by
  induction l generalizing n with
  | nil => rfl
  | cons c cs ih => simp [assignRanksFrom, ih, List.range'_succ]

theorem cand_mem_of_mem_assignRanksFrom (n : Nat) (l : List Candidate)
    (c : RankedCandidate) (hc : c ∈ assignRanksFrom n l) : c.cand ∈ l := by
  have := List.mem_map_of_mem (fun c => c.cand) hc
  rwa [map_cand_assignRanksFrom] at this

theorem perm_insertAscBy {α : Type} (f : α → ℚ) (x : α) (l : List α) :
    (insertAscBy f x l).Perm (x :: l) := by
  induction l with
  | nil => simp [insertAscBy]
  | cons y ys ih =>
    rw [insertAscBy]
    by_cases h : f y < f x
    · simp only [h, if_pos]
      exact (ih.cons y).trans (List.Perm.swap x y ys)
    · simp [h]

theorem perm_insertSortAscBy {α : Type} (f : α → ℚ) (l : List α) :
    (insertSortAscBy f l).Perm l := by
  induction l with
  | nil => simp [insertSortAscBy]
  | cons x xs ih =>
    rw [insertSortAscBy]
    exact (perm_insertAscBy f x _).trans (ih.cons x)

theorem perm_sortValuesDesc {α : Type} (f : α → ℚ) (l : List α) :
    (sortValuesDesc f l).Perm l := by
  rw [sortValuesDesc]
  exact (List.reverse_perm _).trans (perm_insertSortAscBy f l)

theorem perm_insertDescBy {α : Type} (f : α → ℚ) (x : α) (l : List α) :
    (insertDescBy f x l).Perm (x :: l) := by
  induction l with
  | nil => simp [insertDescBy]
  | cons y ys ih =>
    rw [insertDescBy]
    by_cases h : f y > f x
    · simp only [h, if_pos]
      exact (ih.cons y).trans (List.Perm.swap x y ys)
    · simp [h]

theorem perm_stableSortDescBy {α : Type} (f : α → ℚ) (l : List α) :
    (stableSortDescBy f l).Perm l := by
  induction l with
  | nil => simp [stableSortDescBy]
  | cons x xs ih =>
    rw [stableSortDescBy]
    exact (perm_insertDescBy f x _).trans (ih.cons x)

/-! ### Claim C1 -/

theorem pool_membership (rows : List ScoredRow) (dir : List DirEntry)
    (c : Candidate) (hc : c ∈ candidatePool rows dir)
    (hdir : (dir.map Prod.fst).Nodup) :
    ∃ r n, r ∈ rows ∧ r.is_benchmark = false
      ∧ dirLookup dir r.employee_id = some n ∧ n ≠ ""
      ∧ c = toCandidate rows r n := by
  rw [candidatePool_eq_filterMap rows dir hdir] at hc
  obtain ⟨r, hrdedup, hstep⟩ := List.mem_filterMap.mp hc
  have hrrows : r ∈ rows := mem_of_mem_dedupByKey _ rows r hrdedup
  unfold poolStep at hstep
  split at hstep
  next n hlook =>
    by_cases hn : n = ""
    · rw [if_pos (by simpa using hn)] at hstep
      exact absurd hstep (by simp)
    · rw [if_neg (by simpa using hn)] at hstep
      by_cases hb : r.is_benchmark
      · rw [if_pos hb] at hstep
        exact absurd hstep (by simp)
      · rw [if_neg hb] at hstep
        refine ⟨r, n, hrrows, by simpa using hb, hlook, hn, ?_⟩
        exact (Option.some_inj.mp hstep).symm
  next hlook => exact absurd hstep (by simp)

/-- C1: for every scoring result and directory (directory ids unique,
employee-level `is_benchmark` consistent across an employee's rows, as
the data model guarantees), a successful ranked-candidate derivation
yields ranks that are exactly the contiguous sequence `1..N` where `N`
counts the distinct non-benchmark employees with a non-empty
directory-matched fullname; benchmark employees and employees without a
directory fullname never appear. -/
theorem ranked_candidates_ranks_contiguous
    (rows : List ScoredRow) (dir : List DirEntry) (out : List RankedCandidate)
    (hdir : (dir.map Prod.fst).Nodup)
    (hinv : ∀ r ∈ rows, ∀ r' ∈ rows,
      r.employee_id = r'.employee_id → r.is_benchmark = r'.is_benchmark)
    (hout : buildRankedCandidates rows dir = Except.ok out) :
    out.map (fun c => c.rank) = List.range' 1 (candidateCount rows dir)
    ∧ (∀ c ∈ out, ∀ r ∈ rows,
        r.employee_id = c.cand.employee_id → r.is_benchmark = false)
    ∧ (∀ c ∈ out, ∃ d ∈ dir, d.1 = c.cand.employee_id ∧ d.2 = c.cand.fullname
        ∧ c.cand.fullname ≠ "") := by
  have hcore : out = rankedCore rows dir := by
    unfold buildRankedCandidates at hout
    by_cases h : rows.isEmpty
    · rw [if_pos h] at hout; exact absurd hout (by simp)
    · rw [if_neg h] at hout; exact (Except.ok.injEq _ _ ▸ hout).symm
  subst hcore
  have hlen : (sortValuesDesc (fun c => c.final_match_rate)
      (candidatePool rows dir)).length = candidateCount rows dir := by
    rw [(perm_sortValuesDesc _ _).length_eq, length_candidatePool rows dir hdir]
  have hmem : ∀ c ∈ rankedCore rows dir,
      ∃ r n, r ∈ rows ∧ r.is_benchmark = false
        ∧ dirLookup dir r.employee_id = some n ∧ n ≠ ""
        ∧ c.cand = toCandidate rows r n := by
    intro c hc
    have h1 : c.cand ∈ sortValuesDesc (fun c => c.final_match_rate)
        (candidatePool rows dir) :=
      cand_mem_of_mem_assignRanksFrom 1 _ c hc
    have h2 : c.cand ∈ candidatePool rows dir :=
      (perm_sortValuesDesc _ _).mem_iff.mp h1
    exact pool_membership rows dir c.cand h2 hdir
  refine ⟨?_, ?_, ?_⟩
  · rw [rankedCore, map_rank_assignRanksFrom, hlen]
  · intro c hc r' hr' heq
    obtain ⟨r, n, hr, hb, _, _, hcand⟩ := hmem c hc
    have hid : c.cand.employee_id = r.employee_id := by rw [hcand]; rfl
    rw [hid] at heq
    rw [hinv r' hr' r hr heq, hb]
  · intro c hc
    obtain ⟨r, n, _, _, hlook, hn, hcand⟩ := hmem c hc
    unfold dirLookup at hlook
    obtain ⟨d, hfind, hd2⟩ := Option.map_eq_some'.mp hlook
    have hdmem : d ∈ dir := List.mem_of_find?_eq_some hfind
    have hd1 : d.1 = r.employee_id := by
      have := List.find?_some hfind
      simpa using this
    have hid : c.cand.employee_id = r.employee_id := by rw [hcand]; rfl
    have hname : c.cand.fullname = n := by rw [hcand]; rfl
    exact ⟨d, hdmem, by rw [hd1, hid], by rw [hd2, hname], by rw [hname]; exact hn⟩

/-- Witness for C1 at the spec §8.6 scenario. -/
theorem ranked_candidates_ranks_contiguous_witness :
    (rankedCore basicRows basicDir).map (fun c => c.rank) =
        List.range' 1 (candidateCount basicRows basicDir)
    ∧ (∀ c ∈ rankedCore basicRows basicDir, ∀ r ∈ basicRows,
        r.employee_id = c.cand.employee_id → r.is_benchmark = false)
    ∧ (∀ c ∈ rankedCore basicRows basicDir, ∃ d ∈ basicDir,
        d.1 = c.cand.employee_id ∧ d.2 = c.cand.fullname
        ∧ c.cand.fullname ≠ "") :=
  ranked_candidates_ranks_contiguous basicRows basicDir (rankedCore basicRows basicDir)
    (by decide) (by decide) rfl

/-! ### Claim C2 -/

theorem sorted_insertAscBy {α : Type} (f : α → ℚ) (x : α) (l : List α)
    (hl : l.Pairwise (fun a b => f a ≤ f b)) :
    (insertAscBy f x l).Pairwise (fun a b => f a ≤ f b) := by
  induction l with
  | nil => simp [insertAscBy]
  | cons y ys ih =>
    rw [List.pairwise_cons] at hl
    obtain ⟨hy, hys⟩ := hl
    rw [insertAscBy]
    by_cases h : f y < f x
    · rw [if_pos h, List.pairwise_cons]
      refine ⟨fun z hz => ?_, ih hys⟩
      rcases List.mem_cons.mp ((perm_insertAscBy f x ys).mem_iff.mp hz) with hz | hz
      · rw [hz]; exact le_of_lt h
      · exact hy z hz
    · rw [if_neg h, List.pairwise_cons]
      refine ⟨fun z hz => ?_, List.pairwise_cons.mpr ⟨hy, hys⟩⟩
      rcases List.mem_cons.mp hz with hz | hz
      · rw [hz]; exact le_of_not_lt h
      · exact le_trans (le_of_not_lt h) (hy z hz)

theorem sorted_insertSortAscBy {α : Type} (f : α → ℚ) (l : List α) :
    (insertSortAscBy f l).Pairwise (fun a b => f a ≤ f b) := by
  induction l with
  | nil => simp [insertSortAscBy]
  | cons x xs ih => exact sorted_insertAscBy f x _ ih

/-- C2 counterexample: two candidates tied at `final_match_rate = 80`,
`E1` before `E2` in the input; the ranked output lists `E2` first — the
relative input order of the tie is *not* retained.  (A two-element
array is in numpy's insertion-sort regime, where the ascending argsort
is stable and pandas' reversal is the exact observed behavior.) -/
theorem ranking_tie_order_reversed_cex :
    buildRankedCandidates tieRows basicDir = Except.ok (rankedCore tieRows basicDir)
    ∧ (rankedCore tieRows basicDir).map (fun c => (c.rank, c.cand.employee_id))
        = [(1, "E2"), (2, "E1")]
    ∧ tieRows.map (fun r => r.employee_id) = ["E1", "E2"]
    ∧ ¬ ((rankedCore tieRows basicDir).map (fun c => (c.rank, c.cand.employee_id))
        = [(1, "E1"), (2, "E2")]) :=
  ⟨rfl, by decide, by decide, by decide⟩

/-- C2 amended: the ranking is sorted descending by `final_match_rate`
and its rows are exactly the candidate pool reordered (a permutation),
but the sort is not stable: the default quicksort kind gives no
tie-order guarantee, and equal-rate candidates do not retain their
relative input order (the counterexample shows them reversed). -/
theorem ranking_sorted_desc_not_stable
    (rows : List ScoredRow) (dir : List DirEntry) (out : List RankedCandidate)
    (hout : buildRankedCandidates rows dir = Except.ok out) :
    out.Pairwise (fun a b => b.cand.final_match_rate ≤ a.cand.final_match_rate)
    ∧ (out.map (fun c => c.cand)).Perm (candidatePool rows dir) := by
  have hcore : out = rankedCore rows dir := by
    unfold buildRankedCandidates at hout
    by_cases h : rows.isEmpty
    · rw [if_pos h] at hout; exact absurd hout (by simp)
    · rw [if_neg h] at hout; exact (Except.ok.injEq _ _ ▸ hout).symm
  subst hcore
  constructor
  · have hsorted : (sortValuesDesc (fun c : Candidate => c.final_match_rate)
        (candidatePool rows dir)).Pairwise
          (fun a b => b.final_match_rate ≤ a.final_match_rate) := by
      rw [sortValuesDesc, List.pairwise_reverse]
      exact sorted_insertSortAscBy _ _
    have h2 : List.Pairwise
        (fun a b : Candidate => b.final_match_rate ≤ a.final_match_rate)
        ((assignRanksFrom 1 (sortValuesDesc (fun c => c.final_match_rate)
            (candidatePool rows dir))).map (fun c => c.cand)) := by
      rw [map_cand_assignRanksFrom]
      exact hsorted
    exact List.pairwise_map.mp h2
  · rw [rankedCore, map_cand_assignRanksFrom]
    exact perm_sortValuesDesc _ _

/-! ### Claim C3 -/

theorem argmaxFirst_eq_none {α : Type} (f : α → ℚ) (l : List α)
    (h : argmaxFirst f l = none) : l = [] := by
  cases l with
  | nil => rfl
  | cons x xs =>
    rw [argmaxFirst] at h
    cases hx : argmaxFirst f xs with
    | none => rw [hx] at h; exact absurd h (by simp)
    | some z =>
      rw [hx] at h
      simp only [] at h
      by_cases hc : f z > f x
      · rw [if_pos hc] at h; exact absurd h (by simp)
      · rw [if_neg hc] at h; exact absurd h (by simp)

theorem argmaxFirst_isSome {α : Type} (f : α → ℚ) (l : List α) (hl : l ≠ []) :
    ∃ y, argmaxFirst f l = some y := by
  cases hx : argmaxFirst f l with
  | none => exact absurd (argmaxFirst_eq_none f l hx) hl
  | some y => exact ⟨y, rfl⟩

theorem argmaxFirst_spec {α : Type} (f : α → ℚ) (l : List α) (y : α)
    (h : argmaxFirst f l = some y) :
    ∃ l₁ l₂, l = l₁ ++ y :: l₂ ∧ (∀ a ∈ l₁, f a < f y) ∧ (∀ a ∈ l₂, f a ≤ f y) := by
  induction l generalizing y with
  | nil => exact absurd h (by simp [argmaxFirst])
  | cons x xs ih =>
    rw [argmaxFirst] at h
    cases hx : argmaxFirst f xs with
    | none =>
      rw [hx] at h
      have hxs : xs = [] := argmaxFirst_eq_none f xs hx
      refine ⟨[], [], ?_, by simp, by simp⟩
      rw [hxs]
      simpa using Option.some_inj.mp h
    | some z =>
      rw [hx] at h
      simp only [] at h
      by_cases hc : f z > f x
      · rw [if_pos hc] at h
        have hz : z = y := Option.some_inj.mp h
        subst hz
        obtain ⟨l₁, l₂, hsplit, h1, h2⟩ := ih z hx
        refine ⟨x :: l₁, l₂, by rw [hsplit, List.cons_append], ?_, h2⟩
        intro a ha
        rcases List.mem_cons.mp ha with ha | ha
        · rw [ha]; exact hc
        · exact h1 a ha
      · rw [if_neg hc] at h
        have hxy : x = y := Option.some_inj.mp h
        subst hxy
        obtain ⟨l₁, l₂, hsplit, h1, h2⟩ := ih z hx
        refine ⟨[], xs, rfl, by simp, ?_⟩
        intro a ha
        have hzx : f z ≤ f x := le_of_not_lt hc
        rw [hsplit] at ha
        rcases List.mem_append.mp ha with ha | ha
        · exact le_trans (le_of_lt (h1 a ha)) hzx
        · rcases List.mem_cons.mp ha with ha | ha
          · rw [ha]; exact hzx
          · exact le_trans (h2 a ha) hzx

theorem argminFirst_eq_none {α : Type} (f : α → ℚ) (l : List α)
    (h : argminFirst f l = none) : l = [] := by
  cases l with
  | nil => rfl
  | cons x xs =>
    rw [argminFirst] at h
    cases hx : argminFirst f xs with
    | none => rw [hx] at h; exact absurd h (by simp)
    | some z =>
      rw [hx] at h
      simp only [] at h
      by_cases hc : f z < f x
      · rw [if_pos hc] at h; exact absurd h (by simp)
      · rw [if_neg hc] at h; exact absurd h (by simp)

theorem argminFirst_isSome {α : Type} (f : α → ℚ) (l : List α) (hl : l ≠ []) :
    ∃ y, argminFirst f l = some y := by
  cases hx : argminFirst f l with
  | none => exact absurd (argminFirst_eq_none f l hx) hl
  | some y => exact ⟨y, rfl⟩

theorem argminFirst_spec {α : Type} (f : α → ℚ) (l : List α) (y : α)
    (h : argminFirst f l = some y) :
    ∃ l₁ l₂, l = l₁ ++ y :: l₂ ∧ (∀ a ∈ l₁, f y < f a) ∧ (∀ a ∈ l₂, f y ≤ f a) := by
  induction l generalizing y with
  | nil => exact absurd h (by simp [argminFirst])
  | cons x xs ih =>
    rw [argminFirst] at h
    cases hx : argminFirst f xs with
    | none =>
      rw [hx] at h
      have hxs : xs = [] := argminFirst_eq_none f xs hx
      refine ⟨[], [], ?_, by simp, by simp⟩
      rw [hxs]
      simpa using Option.some_inj.mp h
    | some z =>
      rw [hx] at h
      simp only [] at h
      by_cases hc : f z < f x
      · rw [if_pos hc] at h
        have hz : z = y := Option.some_inj.mp h
        subst hz
        obtain ⟨l₁, l₂, hsplit, h1, h2⟩ := ih z hx
        refine ⟨x :: l₁, l₂, by rw [hsplit, List.cons_append], ?_, h2⟩
        intro a ha
        rcases List.mem_cons.mp ha with ha | ha
        · rw [ha]; exact hc
        · exact h1 a ha
      · rw [if_neg hc] at h
        have hxy : x = y := Option.some_inj.mp h
        subst hxy
        obtain ⟨l₁, l₂, hsplit, h1, h2⟩ := ih z hx
        refine ⟨[], xs, rfl, by simp, ?_⟩
        intro a ha
        have hzx : f x ≤ f z := le_of_not_lt hc
        rw [hsplit] at ha
        rcases List.mem_append.mp ha with ha | ha
        · exact le_trans hzx (le_of_lt (h1 a ha))
        · rcases List.mem_cons.mp ha with ha | ha
          · rw [ha]; exact hzx
          · exact le_trans hzx (h2 a ha)

theorem pool_membership_weak (rows : List ScoredRow) (dir : List DirEntry)
    (c : Candidate) (hc : c ∈ candidatePool rows dir) :
    ∃ r n, c = toCandidate rows r n := by
  unfold candidatePool at hc
  obtain ⟨p, _, hstep⟩ := List.mem_filterMap.mp (List.mem_of_mem_filter hc)
  cases hp2 : p.2 with
  | none => rw [hp2] at hstep; exact absurd hstep (by simp)
  | some n =>
    rw [hp2] at hstep
    simp only [] at hstep
    by_cases hn : n = ""
    · rw [if_pos (by simpa using hn)] at hstep
      exact absurd hstep (by simp)
    · rw [if_neg (by simpa using hn)] at hstep
      exact ⟨p.1, n, (Option.some_inj.mp hstep).symm⟩

/-- C3 counterexample: the pair `(E1, A)` occurs with rates 50 and 90
(and `(E1, B)` with 70).  The source de-duplicates by the full triple,
so both `A`-rows survive and the top domain is `A` (rate 90); the
claim's pair-wise de-duplication would keep only the first `A`-row
(rate 50) and return `B` (rate 70). -/
theorem top_domain_pair_dedup_cex :
    computeTopDomainPerEmployee dupPairRows "E1" = some "A"
    ∧ specTopDomainPerEmployee dupPairRows "E1" = some "B"
    ∧ computeTopDomainPerEmployee dupPairRows "E1"
        ≠ specTopDomainPerEmployee dupPairRows "E1" :=
  ⟨by decide, by decide, by decide⟩

/-- C3 amended: `computeTopDomainPerEmployee` de-duplicates by the full
triple `(employee_id, tgv_name, tgv_match_rate)` (not by the pair), then
maps each employee to the domain of the first row attaining the maximal
`tgv_match_rate` among its de-duplicated rows; an employee with zero
domain rows is absent from the mapping, every employee with at least one
row is mapped, and the ranked output renders a missing mapping as the
literal `"N/A"`. -/
theorem top_domain_triple_dedup_first_max (rows : List ScoredRow) (e : String) :
    ((∀ r ∈ rows, r.employee_id ≠ e) → computeTopDomainPerEmployee rows e = none)
    ∧ (∀ d, computeTopDomainPerEmployee rows e = some d →
        ∃ l₁ t l₂,
          (uniqueTgvRows rows).filter (fun t => t.1 == e) = l₁ ++ t :: l₂
          ∧ t.1 = e ∧ t.2.1 = d
          ∧ (∀ a ∈ l₁, a.2.2 < t.2.2) ∧ (∀ a ∈ l₂, a.2.2 ≤ t.2.2))
    ∧ ((∃ r ∈ rows, r.employee_id = e) →
        ∃ d, computeTopDomainPerEmployee rows e = some d)
    ∧ (∀ dir out, buildRankedCandidates rows dir = Except.ok out → ∀ c ∈ out,
        c.cand.top_tgv =
          (computeTopDomainPerEmployee rows c.cand.employee_id).getD "N/A") := by
  refine ⟨?_, ?_, ?_, ?_⟩
  · intro hnone
    have hfil : (uniqueTgvRows rows).filter (fun t => t.1 == e) = [] := by
      rw [List.filter_eq_nil_iff]
      intro t ht hbeq
      have htl : t ∈ rows.map (fun r => (r.employee_id, r.tgv_name, r.tgv_match_rate)) :=
        mem_of_mem_dedupByKey _ _ t ht
      obtain ⟨r, hr, hrt⟩ := List.mem_map.mp htl
      have : t.1 = e := by simpa using hbeq
      rw [← hrt] at this
      exact hnone r hr this
    rw [computeTopDomainPerEmployee, hfil]
    rfl
  · intro d hd
    rw [computeTopDomainPerEmployee] at hd
    obtain ⟨t₀, hmax, ht₀d⟩ := Option.map_eq_some'.mp hd
    obtain ⟨l₁, l₂, hsplit, h1, h2⟩ := argmaxFirst_spec _ _ _ hmax
    have ht₀mem : t₀ ∈ (uniqueTgvRows rows).filter (fun t => t.1 == e) := by
      rw [hsplit]
      exact List.mem_append.mpr (Or.inr (List.mem_cons_self _ _))
    have ht₀e : t₀.1 = e := by
      have := List.of_mem_filter ht₀mem
      simpa using this
    exact ⟨l₁, t₀, l₂, hsplit, ht₀e, ht₀d, h1, h2⟩
  · rintro ⟨r, hr, hre⟩
    have htriple : (r.employee_id, r.tgv_name, r.tgv_match_rate) ∈ uniqueTgvRows rows := by
      have hm : (r.employee_id, r.tgv_name, r.tgv_match_rate) ∈
          rows.map (fun r => (r.employee_id, r.tgv_name, r.tgv_match_rate)) :=
        List.mem_map_of_mem _ hr
      have hiff := mem_map_key_dedupByKey (fun t : TgvTriple => t)
        (rows.map (fun r => (r.employee_id, r.tgv_name, r.tgv_match_rate)))
        (r.employee_id, r.tgv_name, r.tgv_match_rate)
      rw [List.map_id', List.map_id'] at hiff
      exact hiff.mpr hm
    have hfil : (r.employee_id, r.tgv_name, r.tgv_match_rate) ∈
        (uniqueTgvRows rows).filter (fun t => t.1 == e) :=
      List.mem_filter.mpr ⟨htriple, by simpa using hre⟩
    have hne : (uniqueTgvRows rows).filter (fun t => t.1 == e) ≠ [] :=
      List.ne_nil_of_mem hfil
    obtain ⟨y, hy⟩ := argmaxFirst_isSome (fun t => t.2.2) _ hne
    exact ⟨y.2.1, by rw [computeTopDomainPerEmployee, hy]; rfl⟩
  · intro dir out hout c hc
    have hcore : out = rankedCore rows dir := by
      unfold buildRankedCandidates at hout
      by_cases h : rows.isEmpty
      · rw [if_pos h] at hout; exact absurd hout (by simp)
      · rw [if_neg h] at hout; exact (Except.ok.injEq _ _ ▸ hout).symm
    subst hcore
    have h1 : c.cand ∈ sortValuesDesc (fun c => c.final_match_rate)
        (candidatePool rows dir) :=
      cand_mem_of_mem_assignRanksFrom 1 _ c hc
    have h2 : c.cand ∈ candidatePool rows dir :=
      (perm_sortValuesDesc _ _).mem_iff.mp h1
    obtain ⟨r, n, hcand⟩ := pool_membership_weak rows dir c.cand h2
    rw [hcand]
    rfl

/-- Witness for the amended C3: employee `E9` has no rows and is absent
from the mapping; employee `E1` has rows and is mapped. -/
theorem top_domain_triple_dedup_first_max_witness :
    computeTopDomainPerEmployee dupPairRows "E9" = none
    ∧ ∃ d, computeTopDomainPerEmployee dupPairRows "E1" = some d :=
  ⟨(top_domain_triple_dedup_first_max dupPairRows "E9").1 (by decide),
    (top_domain_triple_dedup_first_max dupPairRows "E1").2.2.1
      ⟨mkRow "E1" 75 false "A" 50, by decide, rfl⟩⟩

/-! ### Claim C4 -/

/-- C4 (code bug): on an empty scoring result the source stores
`pd.DataFrame()` — a frame with no columns — and the ranked-list
derivation's column selection raises `KeyError` (surfaced by the
top-level display handler) instead of yielding an empty sequence;
`domainDistribution` itself on an empty input is the empty series. -/
theorem empty_rows_ranked_derivation_raises :
    buildRankedCandidates [] basicDir = Except.error keyErrorMsg
    ∧ domainDistribution [] = [] :=
  ⟨rfl, rfl⟩

/-! ### Claim C8 -/

/-- C8: the session results are stored before the vacancy insert, so the
fetched rows render regardless of its outcome; a failed vacancy insert
(`none`) leaves the vacancy id absent and skips the audit insert; the
audit insert is attempted only when the vacancy insert yielded a
(truthy) identifier, and every audit record references it. -/
theorem vacancy_failure_skips_audit (rows : List ScoredRow) (vins : Option Nat) :
    (runGenerate rows vins).sessionResults = rows
    ∧ (vins = none →
        (runGenerate rows vins).auditAttempted = false
        ∧ (runGenerate rows vins).vacancyId = none)
    ∧ ((runGenerate rows vins).auditAttempted = true →
        ∃ n, vins = some n ∧ n ≠ 0
          ∧ ∀ a ∈ (runGenerate rows vins).auditRecords, a.vacancy_id = n) := by
  refine ⟨?_, ?_, ?_⟩
  · unfold runGenerate
    by_cases h : (pyTruthy vins && !rows.isEmpty) = true
    · rw [if_pos h]
    · rw [if_neg h]
  · intro hv
    subst hv
    unfold runGenerate
    rw [if_neg (by simp [pyTruthy])]
    exact ⟨rfl, rfl⟩
  · intro hatt
    unfold runGenerate at hatt
    by_cases h : (pyTruthy vins && !rows.isEmpty) = true
    · have htruthy : pyTruthy vins = true := (Bool.and_eq_true _ _ |>.mp h).1
      cases vins with
      | none => exact absurd htruthy (by simp [pyTruthy])
      | some n =>
        have hn : n ≠ 0 := by simpa [pyTruthy] using htruthy
        refine ⟨n, rfl, hn, ?_⟩
        intro a ha
        unfold runGenerate at ha
        rw [if_pos h] at ha
        simp only [] at ha
        obtain ⟨r, _, hra⟩ := List.mem_map.mp ha
        rw [← hra]
        rfl
    · rw [if_neg h] at hatt
      exact absurd hatt (by simp)

/-- Witness for C8: a failed vacancy insert and a successful one. -/
theorem vacancy_failure_skips_audit_witness :
    (runGenerate auditRows none).auditAttempted = false
    ∧ (runGenerate auditRows none).vacancyId = none
    ∧ (runGenerate auditRows none).sessionResults = auditRows
    ∧ ∃ n, (some 7 : Option Nat) = some n ∧ n ≠ 0
        ∧ ∀ a ∈ (runGenerate auditRows (some 7)).auditRecords, a.vacancy_id = n :=
  ⟨((vacancy_failure_skips_audit auditRows none).2.1 rfl).1,
    ((vacancy_failure_skips_audit auditRows none).2.1 rfl).2,
    (vacancy_failure_skips_audit auditRows none).1,
    (vacancy_failure_skips_audit auditRows (some 7)).2.2 (by decide)⟩

/-! ### Claim C9 -/

/-- C9 (code bug): the audit payload is one record per *raw scored
row* — duplicated per domain and including benchmark employees — not
the ranked-candidate snapshot (here the single candidate `E1`); the
`gap_report`/`recommendations` placeholders are empty/null as stated. -/
theorem audit_payload_raw_rows_bug :
    (runGenerate auditRows (some 7)).auditRecords.map (fun a => a.candidate_id)
        = ["E1", "E1", "B1"]
    ∧ (runGenerate auditRows (some 7)).auditRecords.map
        (fun a => (a.gap_report, a.recommendations))
        = [([], none), ([], none), ([], none)]
    ∧ buildRankedCandidates auditRows auditDir
        = Except.ok (rankedCore auditRows auditDir)
    ∧ (rankedCore auditRows auditDir).map (fun c => c.cand.employee_id) = ["E1"] :=
  ⟨by decide, by decide, rfl, by decide⟩

/-! ### Claim C6 -/

theorem groupMeanTgv_eq_none_of_absent (l : List ScoredRow) (t : String)
    (h : ∀ r ∈ l, r.tgv_name ≠ t) :
    groupMeanTgv (uniqueTgvRows l) t = none := by
  have hfil : (uniqueTgvRows l).filter (fun x => x.2.1 == t) = [] := by
    rw [List.filter_eq_nil_iff]
    intro x hx hbeq
    have hxl : x ∈ l.map (fun r => (r.employee_id, r.tgv_name, r.tgv_match_rate)) :=
      mem_of_mem_dedupByKey _ _ x hx
    obtain ⟨r, hr, hrx⟩ := List.mem_map.mp hxl
    have hxt : x.2.1 = t := by simpa using hbeq
    rw [← hrx] at hxt
    exact h r hr hxt
  rw [groupMeanTgv]
  simp [hfil]

/-- C6: the comparison vector always has exactly one entry per canonical
domain, aligned to the canonical order, and a domain absent from the
benchmark rows (resp. the candidate's rows) carries benchmark value 0
(resp. candidate value 0). -/
theorem comparison_vector_aligned_defaults (rows : List ScoredRow) (cid : String) :
    (buildComparisonVector rows cid).length = defaultTgvs.length
    ∧ (buildComparisonVector rows cid).map (fun e => e.1) = defaultTgvs
    ∧ (∀ e ∈ buildComparisonVector rows cid,
        (∀ r ∈ rows, r.is_benchmark = true → r.tgv_name ≠ e.1) → e.2.1 = 0)
    ∧ (∀ e ∈ buildComparisonVector rows cid,
        (∀ r ∈ rows, r.employee_id = cid → r.tgv_name ≠ e.1) → e.2.2 = 0) := by
  refine ⟨by rw [buildComparisonVector, List.length_map], ?_, ?_, ?_⟩
  · rw [buildComparisonVector, List.map_map]
    exact List.map_id' defaultTgvs
  · intro e he habs
    obtain ⟨t, _, hte⟩ := List.mem_map.mp he
    have ht1 : e.1 = t := by rw [← hte]
    have hnone : groupMeanTgv
        (uniqueTgvRows (rows.filter (fun r => r.is_benchmark))) t = none := by
      refine groupMeanTgv_eq_none_of_absent _ t (fun r hr => ?_)
      have hmem := List.mem_filter.mp hr
      exact ht1 ▸ habs r hmem.1 hmem.2
    rw [← hte]
    simpa using congrArg (fun o => o.getD 0) hnone
  · intro e he habs
    obtain ⟨t, _, hte⟩ := List.mem_map.mp he
    have ht1 : e.1 = t := by rw [← hte]
    have hnone : groupMeanTgv
        (uniqueTgvRows (rows.filter (fun r => r.employee_id == cid))) t = none := by
      refine groupMeanTgv_eq_none_of_absent _ t (fun r hr => ?_)
      have hmem := List.mem_filter.mp hr
      exact ht1 ▸ habs r hmem.1 (by simpa using hmem.2)
    rw [← hte]
    simpa using congrArg (fun o => o.getD 0) hnone

/-- Witness for C6 at the audit scenario: the vector is aligned to the
canonical domain list, and a domain with no rows at all carries 0. -/
theorem comparison_vector_aligned_defaults_witness :
    (buildComparisonVector auditRows "E1").map (fun e => e.1) = defaultTgvs
    ∧ (("Behavioral (Strengths)", (0 : ℚ), (0 : ℚ)) : String × ℚ × ℚ).2.1 = 0 :=
  ⟨(comparison_vector_aligned_defaults auditRows "E1").2.1,
    (comparison_vector_aligned_defaults auditRows "E1").2.2.1
      ("Behavioral (Strengths)", 0, 0) (by decide) (by decide)⟩

/-! ### Claim C7 -/

theorem sorted_insertDescBy {α : Type} (f : α → ℚ) (x : α) (l : List α)
    (hl : l.Pairwise (fun a b => f b ≤ f a)) :
    (insertDescBy f x l).Pairwise (fun a b => f b ≤ f a) := by
  induction l with
  | nil => simp [insertDescBy]
  | cons y ys ih =>
    rw [List.pairwise_cons] at hl
    obtain ⟨hy, hys⟩ := hl
    rw [insertDescBy]
    by_cases h : f y > f x
    · rw [if_pos h, List.pairwise_cons]
      refine ⟨fun z hz => ?_, ih hys⟩
      rcases List.mem_cons.mp ((perm_insertDescBy f x ys).mem_iff.mp hz) with hz | hz
      · rw [hz]; exact le_of_lt h
      · exact hy z hz
    · rw [if_neg h, List.pairwise_cons]
      refine ⟨fun z hz => ?_, List.pairwise_cons.mpr ⟨hy, hys⟩⟩
      rcases List.mem_cons.mp hz with hz | hz
      · rw [hz]; exact le_of_not_lt h
      · exact le_trans (hy z hz) (le_of_not_lt h)

theorem sorted_stableSortDescBy {α : Type} (f : α → ℚ) (l : List α) :
    (stableSortDescBy f l).Pairwise (fun a b => f b ≤ f a) := by
  induction l with
  | nil => simp [stableSortDescBy]
  | cons x xs ih => exact sorted_insertDescBy f x _ ih

theorem take_insertDescBy_self {α : Type} (f : α → ℚ) (x : α) (s : List α)
    (k : Nat) (hx : x ∉ s) (hs : s.Pairwise (fun a b => f b ≤ f a)) :
    (x ∈ (insertDescBy f x s).take k ↔ s.countP (fun z => f x < f z) < k) := by
  induction s generalizing k with
  | nil =>
    cases k with
    | zero => simp [insertDescBy]
    | succ k => simp [insertDescBy, List.take_succ_cons]
  | cons y ys ih =>
    have hxy : x ≠ y := fun he => hx (he ▸ List.mem_cons_self _ _)
    have hxys : x ∉ ys := fun hc => hx (List.mem_cons_of_mem _ hc)
    rw [List.pairwise_cons] at hs
    obtain ⟨hy, hys⟩ := hs
    rw [insertDescBy]
    by_cases h : f y > f x
    · rw [if_pos h]
      cases k with
      | zero => simp
      | succ k =>
        rw [List.take_succ_cons, List.mem_cons, List.countP_cons,
          ih k hxys hys]
        have hyc : decide (f x < f y) = true := decide_eq_true h
        rw [hyc, if_pos rfl]
        constructor
        · rintro (hc | hc)
          · exact absurd hc hxy
          · omega
        · intro hc
          exact Or.inr (by omega)
    · rw [if_neg h]
      have hcount : (y :: ys).countP (fun z => f x < f z) = 0 := by
        rw [List.countP_eq_zero]
        intro a ha
        rcases List.mem_cons.mp ha with ha | ha
        · rw [ha]; simpa using le_of_not_lt h
        · simpa using le_trans (hy a ha) (le_of_not_lt h)
      rw [hcount]
      cases k with
      | zero => simp
      | succ k => simp [List.take_succ_cons]

theorem take_insertDescBy_other {α : Type} (f : α → ℚ) (x e : α) (s : List α)
    (k : Nat) (hne : e ≠ x) (hs : s.Pairwise (fun a b => f b ≤ f a)) :
    (e ∈ (insertDescBy f x s).take k ↔
      if f e ≤ f x then e ∈ s.take (k - 1) else e ∈ s.take k) := by
  induction s generalizing k with
  | nil =>
    cases k with
    | zero => simp [insertDescBy]
    | succ k =>
      rw [insertDescBy]
      by_cases hc : f e ≤ f x <;>
        simp [hc, List.take_succ_cons, hne]
  | cons y ys ih =>
    rw [List.pairwise_cons] at hs
    obtain ⟨hy, hys⟩ := hs
    rw [insertDescBy]
    by_cases h : f y > f x
    · rw [if_pos h]
      cases k with
      | zero => by_cases hc : f e ≤ f x <;> simp [hc]
      | succ k =>
        rw [List.take_succ_cons, List.mem_cons]
        by_cases hey : e = y
        · subst hey
          have hc : ¬ (f e ≤ f x) := not_le_of_lt h
          simp [hc, List.take_succ_cons]
        · rw [ih k hys]
          by_cases hc : f e ≤ f x
          · rw [if_pos hc, if_pos hc, Nat.succ_sub_one]
            cases k with
            | zero => simp [hey]
            | succ k =>
              rw [Nat.succ_sub_one, List.take_succ_cons, List.mem_cons]
          · rw [if_neg hc, if_neg hc, List.take_succ_cons, List.mem_cons]
    · rw [if_neg h]
      have hxy : f y ≤ f x := le_of_not_lt h
      cases k with
      | zero => by_cases hc : f e ≤ f x <;> simp [hc]
      | succ k =>
        rw [List.take_succ_cons, List.mem_cons, Nat.succ_sub_one]
        by_cases hc : f e ≤ f x
        · rw [if_pos hc]
          simp [hne]
        · rw [if_neg hc]
          have hxe : f x < f e := lt_of_not_le hc
          have hnotin : ∀ z ∈ y :: ys, z ≠ e := by
            intro z hz hze
            rcases List.mem_cons.mp hz with hz | hz
            · rw [hz] at hze
              rw [hze] at hxy
              exact absurd (lt_of_lt_of_le hxe hxy) (lt_irrefl _)
            · have hzy : f z ≤ f y := hy z hz
              rw [hze] at hzy
              exact absurd (lt_of_lt_of_le hxe (le_trans hzy hxy)) (lt_irrefl _)
          have hno1 : e ∉ (y :: ys).take k := fun hc' =>
            hnotin e (List.mem_of_mem_take hc') rfl
          have hno2 : e ∉ (y :: ys).take (k + 1) := fun hc' =>
            hnotin e (List.mem_of_mem_take hc') rfl
          constructor
          · rintro (hex | hmem)
            · exact absurd hex hne
            · exact absurd hmem hno1
          · intro hmem
            exact absurd hmem hno2

theorem take_stableSortDescBy_beatCount {α : Type} [DecidableEq α] (f : α → ℚ)
    (e : α) :
    ∀ (v : List α) (k : Nat), v.Nodup → e ∈ v →
      (e ∈ (stableSortDescBy f v).take k ↔ beatCount f v e < k) := by
  intro v
  induction v with
  | nil => intro k _ he; simp at he
  | cons x xs ih =>
    intro k hn he
    rw [List.nodup_cons] at hn
    obtain ⟨hxnot, hnd⟩ := hn
    rw [stableSortDescBy]
    by_cases hex : e = x
    · subst hex
      rw [beatCount, if_pos rfl]
      have hxs : e ∉ stableSortDescBy f xs := fun hc =>
        hxnot ((perm_stableSortDescBy f xs).mem_iff.mp hc)
      rw [take_insertDescBy_self f e _ k hxs (sorted_stableSortDescBy f xs)]
      rw [(perm_stableSortDescBy f xs).countP_eq]
    · have hexs : e ∈ xs := (List.mem_cons.mp he).resolve_left hex
      rw [beatCount, if_neg (fun hxe => hex hxe.symm)]
      rw [take_insertDescBy_other f x e _ k hex (sorted_stableSortDescBy f xs)]
      by_cases hc : f e ≤ f x
      · rw [if_pos hc, if_pos hc, ih (k - 1) hnd hexs]
        omega
      · rw [if_neg hc, if_neg hc, ih k hnd hexs]
        omega

theorem nodup_buildComparisonVector (rows : List ScoredRow) (cid : String) :
    (buildComparisonVector rows cid).Nodup := by
  rw [buildComparisonVector]
  refine List.Nodup.map ?_ (by decide)
  intro a b hab
  exact congrArg Prod.fst hab

set_option maxHeartbeats 1000000 in
/-- C7: for the comparison vector of any row set and candidate, the
insights are always produced (never the error branch); the strongest
area is the first domain attaining the maximal
`candidateValue - benchmarkAverage`, the largest gap the first domain
attaining the minimal diff; a domain name is reported as a reason iff
its entry is among the 3 with the highest raw candidate value (earlier
entries winning ties, fewer than 3 entries outranking it) and its
candidate value is at least its benchmark average; an empty reason list
(the balanced-performance message) is still a produced insight, not an
error. -/
theorem insights_strongest_gap_reasons (rows : List ScoredRow) (cid : String) :
    ∃ ins, computeInsights (buildComparisonVector rows cid) = some ins
    ∧ (∃ l₁ e l₂, buildComparisonVector rows cid = l₁ ++ e :: l₂
        ∧ ins.strongest = e.1
        ∧ (∀ a ∈ l₁, a.2.2 - a.2.1 < e.2.2 - e.2.1)
        ∧ (∀ a ∈ l₂, a.2.2 - a.2.1 ≤ e.2.2 - e.2.1))
    ∧ (∃ l₁ e l₂, buildComparisonVector rows cid = l₁ ++ e :: l₂
        ∧ ins.gap = e.1
        ∧ (∀ a ∈ l₁, e.2.2 - e.2.1 < a.2.2 - a.2.1)
        ∧ (∀ a ∈ l₂, e.2.2 - e.2.1 ≤ a.2.2 - a.2.1))
    ∧ ins.reasons.length ≤ 3
    ∧ (∀ nm, nm ∈ ins.reasons ↔ ∃ e ∈ buildComparisonVector rows cid,
        e.1 = nm
        ∧ beatCount (fun a => a.2.2) (buildComparisonVector rows cid) e < 3
        ∧ e.2.1 ≤ e.2.2) := by
  set v := buildComparisonVector rows cid with hv
  have hvne : v ≠ [] := by
    rw [hv, buildComparisonVector, defaultTgvs]
    simp
  obtain ⟨eMax, hmax⟩ := argmaxFirst_isSome (fun e => e.2.2 - e.2.1) v hvne
  obtain ⟨eMin, hmin⟩ := argminFirst_isSome (fun e => e.2.2 - e.2.1) v hvne
  have hguard : notnaAny (v.map (fun e => e.2.2 - e.2.1)) = true := by
    obtain ⟨x, xs, hvx⟩ := List.exists_cons_of_ne_nil hvne
    rw [hvx]
    rfl
  have hins : computeInsights v = some
      { strongest := eMax.1
        gap := eMin.1
        reasons := (((stableSortDescBy (fun e => e.2.2) v).take 3).filter
            (fun e => e.2.1 ≤ e.2.2)).map (fun e => e.1) } := by
    rw [computeInsights]
    simp only [hguard, if_true, hmax, hmin]
  refine ⟨_, hins, ?_, ?_, ?_, ?_⟩
  · obtain ⟨l₁, l₂, hsplit, h1, h2⟩ := argmaxFirst_spec _ _ _ hmax
    exact ⟨l₁, eMax, l₂, hsplit, rfl, h1, h2⟩
  · obtain ⟨l₁, l₂, hsplit, h1, h2⟩ := argminFirst_spec _ _ _ hmin
    exact ⟨l₁, eMin, l₂, hsplit, rfl, h1, h2⟩
  · have h1 := List.length_filter_le
      (fun e : String × ℚ × ℚ => decide (e.2.1 ≤ e.2.2))
      ((stableSortDescBy (fun e => e.2.2) v).take 3)
    have h2 : ((stableSortDescBy (fun e => e.2.2) v).take 3).length ≤ 3 := by
      rw [List.length_take]
      exact min_le_left _ _
    rw [List.length_map]
    omega
  · intro nm
    constructor
    · intro hnm
      obtain ⟨e, hef, hen⟩ := List.mem_map.mp hnm
      have hetake : e ∈ (stableSortDescBy (fun e => e.2.2) v).take 3 :=
        List.mem_of_mem_filter hef
      have hecond : (e.2.1 ≤ e.2.2) := by
        have := List.of_mem_filter hef
        simpa using this
      have hev : e ∈ v :=
        (perm_stableSortDescBy _ _).mem_iff.mp (List.mem_of_mem_take hetake)
      have hbeat := (take_stableSortDescBy_beatCount (fun a => a.2.2) e v 3
        (nodup_buildComparisonVector rows cid) hev).mp hetake
      exact ⟨e, hev, hen, hbeat, hecond⟩
    · rintro ⟨e, hev, hen, hbeat, hecond⟩
      have hiff := take_stableSortDescBy_beatCount (fun a => a.2.2) e v 3
        (nodup_buildComparisonVector rows cid) hev
      have hetake := hiff.mpr hbeat
      exact List.mem_map.mpr ⟨e, List.mem_filter.mpr ⟨hetake, by simpa using hecond⟩, hen⟩

/-- Witness for C7 at the audit scenario and candidate `E1`. -/
theorem insights_strongest_gap_reasons_witness :
    ∃ ins, computeInsights (buildComparisonVector auditRows "E1") = some ins := by
  obtain ⟨ins, hins, _⟩ := insights_strongest_gap_reasons auditRows "E1"
  exact ⟨ins, hins⟩

/-! ### Claim C10 -/

/-- C10: whenever the ranked candidate list is non-empty and one of its
candidates is selected, the diffs series of the comparison vector is
entirely non-NaN (both radar series being defaulted to 0 for missing
domains), so `diffs.notna().any()` holds, the "Could not determine
detailed comparison insights." branch is unreachable and the
strongest-area / largest-gap insights are produced. -/
theorem insights_branch_always_taken
    (rows : List ScoredRow) (dir : List DirEntry) (out : List RankedCandidate)
    (cid : String) (_hout : buildRankedCandidates rows dir = Except.ok out)
    (_hne : out ≠ []) (_hsel : ∃ c ∈ out, c.cand.employee_id = cid) :
    notnaAny ((buildComparisonVector rows cid).map (fun e => e.2.2 - e.2.1)) = true
    ∧ ∃ ins, computeInsights (buildComparisonVector rows cid) = some ins := by
  have hvne : buildComparisonVector rows cid ≠ [] := by
    rw [buildComparisonVector, defaultTgvs]
    simp
  have hguard : notnaAny ((buildComparisonVector rows cid).map
      (fun e => e.2.2 - e.2.1)) = true := by
    obtain ⟨x, xs, hvx⟩ := List.exists_cons_of_ne_nil hvne
    rw [hvx]
    rfl
  obtain ⟨eMax, hmax⟩ := argmaxFirst_isSome (fun e => e.2.2 - e.2.1) _ hvne
  obtain ⟨eMin, hmin⟩ := argminFirst_isSome (fun e => e.2.2 - e.2.1) _ hvne
  have hins : computeInsights (buildComparisonVector rows cid) = some
      { strongest := eMax.1
        gap := eMin.1
        reasons := (((stableSortDescBy (fun e => e.2.2)
            (buildComparisonVector rows cid)).take 3).filter
          (fun e => e.2.1 ≤ e.2.2)).map (fun e => e.1) } := by
    rw [computeInsights]
    simp only [hguard, if_true, hmax, hmin]
  exact ⟨hguard, ⟨_, hins⟩⟩

/-- Witness for C10 at the basic scenario, candidate `E2`. -/
theorem insights_branch_always_taken_witness :
    notnaAny ((buildComparisonVector basicRows "E2").map
      (fun e => e.2.2 - e.2.1)) = true
    ∧ ∃ ins, computeInsights (buildComparisonVector basicRows "E2") = some ins :=
  insights_branch_always_taken basicRows basicDir (rankedCore basicRows basicDir)
    "E2" rfl (by decide) (by decide)

/-- Witness for the amended C2 at the tied-candidates scenario. -/
theorem ranking_sorted_desc_not_stable_witness :
    (rankedCore tieRows basicDir).Pairwise
      (fun a b => b.cand.final_match_rate ≤ a.cand.final_match_rate)
    ∧ ((rankedCore tieRows basicDir).map (fun c => c.cand)).Perm
        (candidatePool tieRows basicDir) :=
  ranking_sorted_desc_not_stable tieRows basicDir (rankedCore tieRows basicDir)
    rfl
